import Mathlib

/-!
Verification of the EntityNode core of the Neptune.js engine
(`src/basic/entity.js`, `class Entity`).

The JavaScript class is shallowly embedded as follows.  Entities live in a
heap `EState.nodes : Nat → ENode`; reference fields (`_parent`, the entries
of `_children`, `Component.entity`) hold entity identifiers.  Runtime
classes of components are identifiers as well, and the JavaScript
`instanceof` test is an explicit boolean relation `SubRel` threaded through
every capability query.  Side effects that a run can observe — `console.warn`
output and the `Init`/`Update`/`Destroy` hooks invoked on components — are
recorded in an event trace.  Code paths that throw a TypeError in
JavaScript (`removeChild` on an absent child, `Destroy` on a parentless
node) are modelled by `Option`, with `none` standing for the thrown
exception; the operations that the source keeps total are total here.
-/

namespace Neptune

/-- Classes are identified by numerals; `sub a b = true` models the
JavaScript test `x instanceof B` for an object whose exact class is `a`
and a queried class `b` (true when `a` is `b` or a subclass of `b`). -/
abbrev SubRel : Type := Nat → Nat → Bool

/-- A component instance: `cid` identifies the object, `cls` is its exact
runtime class (what `component.constructor` denotes), `entity` is the back
reference assigned by `addComponent`. -/
structure Component where
  cid : Nat
  cls : Nat
  entity : Option Nat
deriving DecidableEq

/-- The `instanceof` test of a component instance against a queried class. -/
def instOf (sub : SubRel) (c : Component) (t : Nat) : Bool :=
  sub c.cls t

/-- Observable events of a run: `console.warn` output and the lifecycle
hooks invoked on attached components. -/
inductive Ev where
  | warn (msg : String)
  | compInit (cid : Nat)
  | compUpdate (cid : Nat)
  | compDestroy (cid : Nat)
deriving DecidableEq

/-- One entity object (source fields `_name`, `_parent`, `_children`,
`_components`); the parent and child references hold entity identifiers. -/
structure ENode where
  name : String
  parent : Option Nat
  children : List Nat
  components : List Component
deriving DecidableEq

/-- The heap of entity objects together with the log of emitted events. -/
structure EState where
  nodes : Nat → ENode
  trace : List Ev

/-- Overwrite one entity object in the heap. -/
def setNode (s : EState) (i : Nat) (v : ENode) : EState :=
  { s with nodes := fun x => if x = i then v else s.nodes x }

/-- JavaScript `Array.prototype.findIndex`; the sentinel `-1` is modelled
as `none`. -/
def findIndexP {α : Type} (p : α → Bool) : List α → Option Nat
  | [] => none
  | x :: xs => if p x then some 0 else (findIndexP p xs).map (fun i => i + 1)

/-- Source `getComponent(type)`:
`this._components.find(component => component instanceof type)`. -/
def getComponent (sub : SubRel) (s : EState) (n : Nat) (t : Nat) : Option Component :=
  ((s.nodes n).components).find? (fun c => instOf sub c t)

/-- Source `hasComponent(type)`:
`this._components.some(component => component instanceof type)`. -/
def hasComponent (sub : SubRel) (s : EState) (n : Nat) (t : Nat) : Bool :=
  ((s.nodes n).components).any (fun c => instOf sub c t)

/-- Source `removeComponent(type)`: `findIndex` by `instanceof`, splice
when found, otherwise `console.warn("Component not found")`. -/
def removeComponent (sub : SubRel) (s : EState) (n : Nat) (t : Nat) : EState :=
  match findIndexP (fun c => instOf sub c t) ((s.nodes n).components) with
  | some i => setNode s n { s.nodes n with components := ((s.nodes n).components).eraseIdx i }
  | none => { s with trace := s.trace ++ [Ev.warn "Component not found"] }

/-- Source `addComponent(component)`: when no attached component is an
instance of the new component's own class (`component.constructor`), the
code sets `component.entity = this` and pushes; otherwise it emits
`console.warn("Component already attached")` and changes nothing. -/
def addComponent (sub : SubRel) (s : EState) (n : Nat) (c : Component) : EState :=
  if !(hasComponent sub s n c.cls) then
    setNode s n
      { s.nodes n with components := ((s.nodes n).components) ++ [{ c with entity := some n }] }
  else { s with trace := s.trace ++ [Ev.warn "Component already attached"] }

/-- Source `addChild(child)`.  The lazy branch
`if (this._children == null) this._children = []` is unreachable in the
embedding, where `children` is always a list.  When the child is not yet
present (`includes`, reference equality of identifiers) the code sets
`child.parent = this` and then pushes; otherwise it emits
`console.warn("Child already attached")` and changes nothing. -/
def addChild (s : EState) (p c : Nat) : EState :=
  if c ∈ (s.nodes p).children then
    { s with trace := s.trace ++ [Ev.warn "Child already attached"] }
  else
    let s1 := setNode s c { s.nodes c with parent := some p }
    setNode s1 p { s1.nodes p with children := ((s1.nodes p).children) ++ [c] }

/-- Source `removeChild(child)`: computes
`index = this._children.findIndex(c => c == child)` and then executes
`this._children[index].parent = null` BEFORE the `index > -1` check.  When
the child is absent, `this._children[-1]` is `undefined` and the assignment
throws a TypeError before any mutation: modelled as `none`.  When found,
the child's parent is cleared and the entry is spliced out. -/
def removeChild (s : EState) (p c : Nat) : Option EState :=
  match findIndexP (fun x => x == c) ((s.nodes p).children) with
  | none => none
  | some i =>
    let childId := ((s.nodes p).children).getD i 0
    let s1 := setNode s childId { s.nodes childId with parent := none }
    some (setNode s1 p { s1.nodes p with children := ((s1.nodes p).children).eraseIdx i })

/-- Source `getComponentinChildren(type)`: the `forEach` overwrites a local
`component` on every child that has a match (the `return component` inside
the callback only leaves the callback), and the function then ends in
`return null`, discarding the local — so the result of the loop is dead. -/
def getComponentinChildren (sub : SubRel) (s : EState) (n : Nat) (t : Nat) : Option Component :=
  let _component := ((s.nodes n).children).foldl
    (fun acc ch => if hasComponent sub s ch t then getComponent sub s ch t else acc) none
  none

/-- Source `getComponentsInChildren(type)`: pushes `child.getComponent(type)`
for every direct child passing `hasComponent`; under that guard the `find`
yields a value, so the embedding appends `Option.toList` of it. -/
def getComponentsInChildren (sub : SubRel) (s : EState) (n : Nat) (t : Nat) : List Component :=
  ((s.nodes n).children).foldl
    (fun acc ch => if hasComponent sub s ch t then acc ++ (getComponent sub s ch t).toList else acc)
    []

/-- Source `Destroy`, component phase:
`this._components.forEach(component => component.Destroy())` — each hook
invocation is recorded in the trace, in attachment order. -/
def destroyComps (s : EState) (n : Nat) : EState :=
  { s with trace := s.trace ++ ((s.nodes n).components).map (fun c => Ev.compDestroy c.cid) }

/-- JavaScript `Array.prototype.forEach` over the LIVE `_children` array of
node `n`, running a state-transforming callback `f` on the element at each
index: the length is captured once at the start (`r` counts the remaining
iterations), and an index whose entry has been spliced away meanwhile is
skipped, exactly as `forEach` skips missing properties. -/
def forEachMut (f : EState → Nat → Option EState) (n : Nat) :
    Nat → Nat → EState → Option EState
  | _, 0, s => some s
  | k, r + 1, s =>
    let cs := (s.nodes n).children
    if k < cs.length then
      match f s (cs.getD k 0) with
      | none => none
      | some s2 => forEachMut f n (k + 1) r s2
    else forEachMut f n (k + 1) r s

/-- Source `Destroy()` with an explicit recursion budget `fuel` (the source
recurses on the child structure): destroy the attached components in order,
then `this._children.forEach(child => child.Destroy())` over the live
children array — each child's own `Destroy` splices it out of that very
array — and finally `this._parent.removeChild(this)`, which throws
(modelled `none`) when the parent is `null`. -/
def DestroyGo : Nat → EState → Nat → Option EState
  | 0, _, _ => none
  | fuel + 1, s, n =>
    let s1 := destroyComps s n
    let len := ((s1.nodes n).children).length
    match forEachMut (DestroyGo fuel) n 0 len s1 with
    | none => none
    | some s2 =>
      match (s2.nodes n).parent with
      | none => none
      | some p => removeChild s2 p n

mutual

/-- Value-level view of an entity subtree, for the lifecycle traversals
that do not mutate the tree: a node carries its name, the identifiers of
its attached components in attachment order, and its child subtrees in
child order. -/
inductive ETree : Type where
  | node : String → List Nat → ETreeList → ETree

/-- Children of an `ETree`, kept in child order. -/
inductive ETreeList : Type where
  | nil : ETreeList
  | cons : ETree → ETreeList → ETreeList

end

mutual

/-- Source `Init()` on a subtree, threading the event trace exactly as the
code runs: `this._components.forEach(component => component.Init())`
appends one event per component in attachment order, and then
`this._children.forEach(child => child.Init())` recurses into the children
in order. -/
def initRun : ETree → List Ev → List Ev
  | ETree.node _ comps ch, tr =>
    initRunList ch (comps.foldl (fun t c => t ++ [Ev.compInit c]) tr)

/-- The children phase of `Init()`: run `initRun` on each child in order,
threading the trace. -/
def initRunList : ETreeList → List Ev → List Ev
  | ETreeList.nil, tr => tr
  | ETreeList.cons t ts, tr => initRunList ts (initRun t tr)

end

mutual

/-- Specification-side order of `Init` events, written from the spec's
words: a node's own components in attachment order first, then the events
of each child subtree, children in order, recursively. -/
def initOrderSpec : ETree → List Ev
  | ETree.node _ comps ch => comps.map Ev.compInit ++ initOrderSpecList ch

/-- Specification-side `Init` events of a child list: concatenation of the
children's event lists, in child order. -/
def initOrderSpecList : ETreeList → List Ev
  | ETreeList.nil => []
  | ETreeList.cons t ts => initOrderSpec t ++ initOrderSpecList ts

end

/-- One step up the parent chain, on an optional current node. -/
def pstep (s : EState) (o : Option Nat) : Option Nat :=
  o.bind (fun m => (s.nodes m).parent)

/-- The parent chain: `pIter s k n` is the node reached from `n` after `k`
steps along parent references, `none` once the chain has left the tree
through a parentless node. -/
def pIter (s : EState) (k : Nat) (n : Nat) : Option Nat :=
  (pstep s)^[k] (some n)

/-- Parent/child symmetry: every entry of a children sequence points back
at its container. -/
def ParentSym (s : EState) : Prop :=
  ∀ p c, c ∈ (s.nodes p).children → (s.nodes c).parent = some p

/-- No children sequence lists the same node twice. -/
def ChildNodup (s : EState) : Prop :=
  ∀ p, ((s.nodes p).children).Nodup

/-- No node appears in the children sequences of two distinct parents. -/
def UniqueParent (s : EState) : Prop :=
  ∀ c p q, c ∈ (s.nodes p).children → c ∈ (s.nodes q).children → p = q

/-- No node is its own proper ancestor along parent references. -/
def NoSelfAnc (s : EState) : Prop :=
  ∀ n k, pIter s (k + 1) n ≠ some n

/-- Every parent chain eventually leaves the tree through a root. -/
def Terminating (s : EState) : Prop :=
  ∀ n, ∃ k, pIter s k n = none

/-- The tree-shape invariant of the spec: parent/child symmetry, no
duplicate child entries, a unique parent per child, and no cycles. -/
def TreeInv (s : EState) : Prop :=
  ParentSym s ∧ ChildNodup s ∧ UniqueParent s ∧ NoSelfAnc s

/-- Auxiliary strengthening of `TreeInv` used for the preservation proof:
acyclicity is tracked as termination of every parent chain. -/
def StrongInv (s : EState) : Prop :=
  ParentSym s ∧ ChildNodup s ∧ Terminating s

/-- A freshly constructed entity (`new Entity()`): default name, no
parent, empty children, empty components. -/
def blankNode : ENode :=
  { name := "Entity", parent := none, children := [], components := [] }

/-- The initial heap of freshly constructed, standalone entities, with an
empty event trace. -/
def freshState : EState :=
  ⟨fun _ => blankNode, []⟩

/-- States reachable from the fresh forest by arbitrary `addChild` and
`removeChild` calls; a `removeChild` whose child is absent throws before
mutating anything, so the state survives unchanged (`getD`). -/
inductive Reach : EState → Prop
  | init : Reach freshState
  | add (s : EState) (p c : Nat) (hs : Reach s) : Reach (addChild s p c)
  | rem (s : EState) (p c : Nat) (hs : Reach s) : Reach ((removeChild s p c).getD s)

/-- Guarded reachability: as `Reach`, but every `addChild p c` happens
while `c` has no parent and `c` is neither `p` itself nor an ancestor of
`p` — the discipline under which the code maintains the tree shape. -/
inductive ReachG : EState → Prop
  | init : ReachG freshState
  | add (s : EState) (p c : Nat) (hs : ReachG s)
      (hpar : (s.nodes c).parent = none)
      (hanc : ∀ k, pIter s k p ≠ some c) : ReachG (addChild s p c)
  | rem (s : EState) (p c : Nat) (hs : ReachG s) : ReachG ((removeChild s p c).getD s)

/-- Flat subclass relation: a class is only an instance of itself. -/
def subEqRel : SubRel := fun a b => a == b

/-- Two-class hierarchy: class `1` is a subclass of class `0`, so an
instance of `1` also satisfies an `instanceof` query for `0`. -/
def subHierRel : SubRel := fun a b => a == b || (a == 1 && b == 0)

/-- Concrete heap for the absent-child removal: entity `0` has the single
child `2`; entity `1` exists but is nobody's child. -/
def sAbsent : EState :=
  ⟨fun i =>
    if i = 0 then { blankNode with children := [2] }
    else if i = 2 then { blankNode with parent := some 0 }
    else blankNode, []⟩

/-- Concrete heap for the child-component query: entity `0` has the single
child `1`, and entity `1` holds component `5` of class `0`. -/
def sQuery : EState :=
  ⟨fun i =>
    if i = 0 then { blankNode with children := [1] }
    else if i = 1 then
      { blankNode with parent := some 0, components := [⟨5, 0, some 1⟩] }
    else blankNode, []⟩

/-- Concrete heap for `Destroy`: entity `1` (component `10`) is the child
of entity `0` and has the two children `2` (component `20`) and `3`
(component `30`). -/
def sDestroy : EState :=
  ⟨fun i =>
    if i = 0 then { blankNode with children := [1] }
    else if i = 1 then
      { blankNode with
          parent := some 0
          children := [2, 3]
          components := [⟨10, 0, some 1⟩] }
    else if i = 2 then
      { blankNode with parent := some 1, components := [⟨20, 0, some 2⟩] }
    else if i = 3 then
      { blankNode with parent := some 1, components := [⟨30, 0, some 3⟩] }
    else blankNode, []⟩

/-- Concrete heap for the warning no-ops: entity `1` holds component `7`
of class `0` and has the single child `2`. -/
def sWarn : EState :=
  ⟨fun i =>
    if i = 1 then
      { blankNode with children := [2], components := [⟨7, 0, some 1⟩] }
    else if i = 2 then { blankNode with parent := some 1 }
    else blankNode, []⟩

/-- Apply `addComponent` for each component of a list in turn, on one
node: an arbitrary sequence of `addComponent` calls on that node. -/
def addComponents (sub : SubRel) (s : EState) (n : Nat) : List Component → EState
  | [] => s
  | c :: cs => addComponents sub (addComponent sub s n c) n cs

/-- JavaScript `some` and `find` agree: `some` is true exactly when `find`
yields a value. -/
theorem any_eq_find_isSome {α : Type} (p : α → Bool) :
    ∀ l : List α, l.any p = (l.find? p).isSome
  | [] => rfl
  | x :: xs => by
    cases h : p x with
    | true => simp [List.any_cons, List.find?_cons, h]
    | false => simp [List.any_cons, List.find?_cons, h, any_eq_find_isSome p xs]

/-- When `some` fails on the whole list, `findIndex` reports no index. -/
theorem findIndexP_eq_none {α : Type} (p : α → Bool) :
    ∀ l : List α, l.any p = false → findIndexP p l = none
  | [], _ => rfl
  | x :: xs, h => by
    rw [List.any_cons, Bool.or_eq_false_iff] at h
    simp [findIndexP, h.1, findIndexP_eq_none p xs h.2]

/-- C1: removing a child that is not present is claimed to be a safe
no-op; the code instead evaluates `this._children[-1].parent = null`, a
TypeError on `undefined`, before the presence check — modelled as the
`none` (thrown) outcome.  Concretely, entity `1` is not a child of entity
`0` and `removeChild` throws rather than no-ops. -/
theorem C1_removeChild_absent_throws :
    1 ∉ (sAbsent.nodes 0).children ∧ removeChild sAbsent 0 1 = none :=
  ⟨by decide, rfl⟩

/-- C2: `getComponentInChildren` is claimed to return the matching
component of the last matching child; the code's `forEach` does compute
that component into a local, but the function ends in `return null`, so it
returns none even when a direct child has a match: child `1` of entity `0`
has a component of class `0`, yet the query yields none. -/
theorem C2_getComponentinChildren_always_none :
    hasComponent subEqRel sQuery 1 0 = true ∧
    getComponentinChildren subEqRel sQuery 0 0 = none :=
  ⟨by decide, rfl⟩

/-- C3: `Destroy()` is claimed to tear down every child recursively before
detaching.  Running the code on entity `1` (child of `0`, components
`[10]`, children `[2, 3]` with components `20` and `30`): child `2`'s own
`Destroy` splices it out of the live `_children` array mid-`forEach`, so
the loop skips child `3` entirely — the final state has `3` still a child
of the destroyed node `1`, its component intact, and the trace shows its
`Destroy` hook (`compDestroy 30`) was never invoked. -/
theorem C3_destroy_skips_second_child :
    (DestroyGo 5 sDestroy 1).map
      (fun s => ((s.nodes 0).children, (s.nodes 1).children, (s.nodes 3).parent,
                 ((s.nodes 3).components).length, s.trace)) =
    some ([], [3], some 1, 1, [Ev.compDestroy 10, Ev.compDestroy 20]) := by
  decide

/-- C10: `hasComponent` answers true exactly when `getComponent` yields a
component — both run the same `instanceof` scan over the same attached
list, `some` versus `find`. -/
theorem C10_has_iff_get (sub : SubRel) (s : EState) (n t : Nat) :
    hasComponent sub s n t = (getComponent sub s n t).isSome :=
  any_eq_find_isSome _ _

/-- The guarded push loop of `getComponentsInChildren` collects exactly
the first match of each matching child, in order. -/
theorem foldl_guard_toList (sub : SubRel) (s : EState) (t : Nat) :
    ∀ (l : List Nat) (acc : List Component),
      l.foldl
        (fun acc ch =>
          if hasComponent sub s ch t then acc ++ (getComponent sub s ch t).toList else acc)
        acc
      = acc ++ l.filterMap (fun ch => getComponent sub s ch t)
  | [], acc => by simp
  | ch :: l, acc => by
    have hg : hasComponent sub s ch t = (getComponent sub s ch t).isSome :=
      any_eq_find_isSome _ _
    cases hc : getComponent sub s ch t with
    | none =>
      rw [List.foldl_cons, List.filterMap_cons]
      simp only [hg, hc, Option.isSome_none, if_neg Bool.false_ne_true]
      exact foldl_guard_toList sub s t l acc
    | some v =>
      rw [List.foldl_cons, List.filterMap_cons]
      simp only [hg, hc, Option.isSome_some, if_pos rfl, ite_true, Option.toList_some]
      rw [foldl_guard_toList sub s t l (acc ++ [v]), List.append_assoc]
      rfl

/-- C8: `getComponentsInChildren` returns, in child order, one entry per
direct child that has a match — that child's first matching component —
and nothing from non-matching children or deeper descendants (the code
touches only the direct `_children` list). -/
theorem C8_components_in_children (sub : SubRel) (s : EState) (n t : Nat) :
    getComponentsInChildren sub s n t
      = ((s.nodes n).children).filterMap (fun ch => getComponent sub s ch t) := by
  simpa using foldl_guard_toList sub s t ((s.nodes n).children) []

/-- When the child was already attached, `addChild` only warns: the heap
survives unchanged. -/
theorem addChild_mem_nodes (s : EState) (p c : Nat) (hmem : c ∈ (s.nodes p).children) :
    (addChild s p c).nodes = s.nodes := by
  simp [addChild, hmem]

/-- Successful `addChild` appends the child to the receiver's children. -/
theorem addChild_children_p (s : EState) (p c : Nat) (h : c ∉ (s.nodes p).children) :
    ((addChild s p c).nodes p).children = (s.nodes p).children ++ [c] := by
  by_cases hpc : p = c
  · subst hpc; simp [addChild, setNode, h]
  · simp [addChild, setNode, h, hpc]

/-- Successful `addChild` sets the child's parent to the receiver. -/
theorem addChild_parent_c (s : EState) (p c : Nat) (h : c ∉ (s.nodes p).children) :
    ((addChild s p c).nodes c).parent = some p := by
  by_cases hpc : p = c
  · subst hpc; simp [addChild, setNode, h]
  · simp [addChild, setNode, h, hpc, Ne.symm hpc]

/-- `addChild` leaves every other node's children untouched. -/
theorem addChild_children_other (s : EState) (p c x : Nat) (h : c ∉ (s.nodes p).children)
    (hx : x ≠ p) : ((addChild s p c).nodes x).children = (s.nodes x).children := by
  by_cases hxc : x = c
  · subst hxc; simp [addChild, setNode, h, hx]
  · simp [addChild, setNode, h, hx, hxc]

/-- `addChild` leaves every other node's parent untouched. -/
theorem addChild_parent_other (s : EState) (p c x : Nat) (h : c ∉ (s.nodes p).children)
    (hx : x ≠ c) : ((addChild s p c).nodes x).parent = (s.nodes x).parent := by
  by_cases hxp : x = p
  · subst hxp; simp [addChild, setNode, h, hx]
  · simp [addChild, setNode, h, hx, hxp]

/-- C9: adding the same child twice leaves exactly one occurrence of it in
the children sequence, its parent equal to the receiver, and the second
call changes no entity (it only logs the duplicate warning). -/
theorem C9_addChild_idempotent (s : EState) (p c : Nat)
    (h : c ∉ (s.nodes p).children) :
    (((addChild (addChild s p c) p c).nodes p).children).count c = 1 ∧
    ((addChild (addChild s p c) p c).nodes c).parent = some p ∧
    (addChild (addChild s p c) p c).nodes = (addChild s p c).nodes := by
  have hmem : c ∈ ((addChild s p c).nodes p).children := by
    rw [addChild_children_p s p c h]
    exact List.mem_append_right _ (List.mem_singleton_self c)
  have hnodes := addChild_mem_nodes (addChild s p c) p c hmem
  refine ⟨?_, ?_, hnodes⟩
  · rw [hnodes, addChild_children_p s p c h, List.count_append]
    have h0 : ((s.nodes p).children).count c = 0 := List.count_eq_zero.mpr h
    simp [h0]
  · rw [hnodes, addChild_parent_c s p c h]

/-- C9 witness: the fresh node `0` adopting the fresh node `1` twice. -/
theorem C9_addChild_idempotent_witness :
    (((addChild (addChild freshState 0 1) 0 1).nodes 0).children).count 1 = 1 ∧
    ((addChild (addChild freshState 0 1) 0 1).nodes 1).parent = some 0 ∧
    (addChild (addChild freshState 0 1) 0 1).nodes = (addChild freshState 0 1).nodes :=
  C9_addChild_idempotent freshState 0 1 (by decide)

/-- C7: the three rejected operations — duplicate component attachment,
duplicate child attachment, and removal of a missing component — each
leave every entity unchanged and only append a `console.warn` event; the
modelling of these operations is total, matching the absence of any thrown
exception on these paths. -/
theorem C7_warn_noop (sub : SubRel) (s : EState) (n : Nat) (comp : Component)
    (p c t : Nat) :
    (hasComponent sub s n comp.cls = true →
      (addComponent sub s n comp).nodes = s.nodes ∧
      (addComponent sub s n comp).trace = s.trace ++ [Ev.warn "Component already attached"])
    ∧ (c ∈ (s.nodes p).children →
      (addChild s p c).nodes = s.nodes ∧
      (addChild s p c).trace = s.trace ++ [Ev.warn "Child already attached"])
    ∧ (hasComponent sub s n t = false →
      (removeComponent sub s n t).nodes = s.nodes ∧
      (removeComponent sub s n t).trace = s.trace ++ [Ev.warn "Component not found"]) := by
  refine ⟨fun h => ?_, fun h => ?_, fun h => ?_⟩
  · simp [addComponent, h]
  · simp [addChild, h]
  · have h2 : ((s.nodes n).components).any (fun c2 => instOf sub c2 t) = false := h
    have hn : findIndexP (fun c2 => instOf sub c2 t) ((s.nodes n).components) = none :=
      findIndexP_eq_none _ _ h2
    simp [removeComponent, hn]

/-- C7 witness: entity `1` of `sWarn` rejecting a second class-`0`
component, a re-add of its child `2`, and removal of the unattached class
`99`. -/
theorem C7_warn_noop_witness :
    ((addComponent subEqRel sWarn 1 ⟨8, 0, none⟩).nodes = sWarn.nodes ∧
      (addComponent subEqRel sWarn 1 ⟨8, 0, none⟩).trace
        = sWarn.trace ++ [Ev.warn "Component already attached"])
    ∧ ((addChild sWarn 1 2).nodes = sWarn.nodes ∧
      (addChild sWarn 1 2).trace = sWarn.trace ++ [Ev.warn "Child already attached"])
    ∧ ((removeComponent subEqRel sWarn 1 99).nodes = sWarn.nodes ∧
      (removeComponent subEqRel sWarn 1 99).trace
        = sWarn.trace ++ [Ev.warn "Component not found"]) :=
  ⟨(C7_warn_noop subEqRel sWarn 1 ⟨8, 0, none⟩ 1 2 99).1 (by decide),
   (C7_warn_noop subEqRel sWarn 1 ⟨8, 0, none⟩ 1 2 99).2.1 (by decide),
   (C7_warn_noop subEqRel sWarn 1 ⟨8, 0, none⟩ 1 2 99).2.2 (by decide)⟩

/-- One `addComponent` call preserves distinctness of the exact classes of
the attached components, for any reflexive `instanceof` relation: a
component whose exact class is already attached is rejected, because the
existing instance passes `instanceof component.constructor`. -/
theorem addComponent_cls_nodup (sub : SubRel) (hrefl : ∀ a, sub a a = true)
    (s : EState) (n : Nat) (c : Component)
    (h : (List.map Component.cls ((s.nodes n).components)).Nodup) :
    (List.map Component.cls (((addComponent sub s n c).nodes n).components)).Nodup := by
  cases hc : hasComponent sub s n c.cls with
  | true => simpa [addComponent, hc] using h
  | false =>
    have hnotin : c.cls ∉ List.map Component.cls ((s.nodes n).components) := by
      intro hmem
      obtain ⟨e, he, hecls⟩ := List.mem_map.mp hmem
      have hinst : instOf sub e c.cls = true := by
        simp [instOf, hecls, hrefl c.cls]
      have hany : ((s.nodes n).components).any (fun x => instOf sub x c.cls) = true :=
        List.any_eq_true.mpr ⟨e, he, hinst⟩
      have hc2 : ((s.nodes n).components).any (fun x => instOf sub x c.cls) = false := hc
      rw [hany] at hc2
      exact Bool.noConfusion hc2
    simp only [addComponent, hc, Bool.not_false, if_pos rfl, ite_true, setNode]
    simp [List.nodup_append, h, hnotin]

/-- Any sequence of `addComponent` calls on one node preserves exact-class
distinctness of its attached components. -/
theorem addComponents_cls_nodup (sub : SubRel) (hrefl : ∀ a, sub a a = true) (n : Nat) :
    ∀ (cs : List Component) (s : EState),
      (List.map Component.cls ((s.nodes n).components)).Nodup →
      (List.map Component.cls (((addComponents sub s n cs).nodes n).components)).Nodup
  | [], _, h => h
  | c :: cs, s, h =>
    addComponents_cls_nodup sub hrefl n cs (addComponent sub s n c)
      (addComponent_cls_nodup sub hrefl s n c h)

/-- C4 (amended): starting from a fresh node, after any sequence of
`addComponent` calls the EXACT runtime class is a unique key — no two
attached components share a class — for every reflexive `instanceof`
relation.  (Uniqueness for a capability that strictly generalizes an
attached class can fail; see the counterexample.) -/
theorem C4_exact_class_unique (sub : SubRel) (s : EState) (n : Nat) (cs : List Component)
    (hrefl : ∀ a, sub a a = true) (h0 : (s.nodes n).components = []) :
    (List.map Component.cls (((addComponents sub s n cs).nodes n).components)).Nodup :=
  addComponents_cls_nodup sub hrefl n cs s (by simp [h0])

/-- C4 witness: three attachment attempts on a fresh node under the flat
class relation, the third a rejected duplicate of class `0`. -/
theorem C4_exact_class_unique_witness :
    (List.map Component.cls
      (((addComponents subEqRel freshState 0
          [⟨0, 0, none⟩, ⟨1, 1, none⟩, ⟨2, 0, none⟩]).nodes 0).components)).Nodup :=
  C4_exact_class_unique subEqRel freshState 0 _ (fun a => by simp [subEqRel]) rfl

/-- C4 counterexample: under the hierarchy where class `1` is a subclass
of class `0`, attaching a class-`0` component and then a class-`1`
component both succeed (the duplicate check only asks `instanceof` against
the NEW component's own class), after which TWO attached components
satisfy the supertype capability `0` — refuting at-most-one per
capability. -/
theorem C4_counterexample :
    ¬ ((((addComponents subHierRel freshState 0
          [⟨0, 0, none⟩, ⟨1, 1, none⟩]).nodes 0).components).countP
        (fun c => instOf subHierRel c 0) ≤ 1) := by
  decide

/-- The component phase of `Init` appends one event per component, in
attachment order. -/
theorem foldl_compInit (l : List Nat) :
    ∀ tr : List Ev, l.foldl (fun t c => t ++ [Ev.compInit c]) tr = tr ++ l.map Ev.compInit := by
  induction l with
  | nil => intro tr; simp
  | cons c l ih => intro tr; simp [ih, List.append_assoc]

mutual

/-- Joint refinement for `initRun`: the trace it threads is the incoming
trace followed by the specification-side event order. -/
theorem initRun_eq_aux : ∀ (t : ETree) (tr : List Ev), initRun t tr = tr ++ initOrderSpec t
  | ETree.node nm comps ch, tr => by
    rw [initRun, initOrderSpec, foldl_compInit, initRunList_eq_aux ch, List.append_assoc]

/-- Joint refinement for `initRunList`: the children phase appends the
children's specification-side events, in child order. -/
theorem initRunList_eq_aux :
    ∀ (ts : ETreeList) (tr : List Ev), initRunList ts tr = tr ++ initOrderSpecList ts
  | ETreeList.nil, tr => by rw [initRunList, initOrderSpecList, List.append_nil]
  | ETreeList.cons t ts, tr => by
    rw [initRunList, initOrderSpecList, initRun_eq_aux t, initRunList_eq_aux ts,
      List.append_assoc]

end

/-- C6: `Init()` run on any subtree emits exactly the node's own
components' `Init` events in attachment order, followed by the children's
events in child order, recursively — so every component of a node
initializes before any component of any descendant. -/
theorem C6_init_order (t : ETree) (tr : List Ev) : initRun t tr = tr ++ initOrderSpec t :=
  initRun_eq_aux t tr

/-- Zero steps along the parent chain stay put. -/
theorem pIter_zero (s : EState) (n : Nat) : pIter s 0 n = some n := rfl

/-- Unfold the parent chain at the far end. -/
theorem pIter_succ (s : EState) (k n : Nat) :
    pIter s (k + 1) n = pstep s (pIter s k n) :=
  Function.iterate_succ_apply' (pstep s) k (some n)

/-- Unfold the parent chain at the near end. -/
theorem pIter_succ_front (s : EState) (k n : Nat) :
    pIter s (k + 1) n = (pstep s)^[k] ((s.nodes n).parent) :=
  Function.iterate_succ_apply (pstep s) k (some n)

/-- Once off the tree, the chain stays off. -/
theorem pstep_none (s : EState) : pstep s none = none := rfl

/-- A chain that has reached `none` remains `none` ever after. -/
theorem pIter_none_mono (s : EState) (j n : Nat) (h : pIter s j n = none) (i : Nat) :
    pIter s (i + j) n = none := by
  show (pstep s)^[i + j] (some n) = none
  rw [Function.iterate_add_apply]
  show (pstep s)^[i] (pIter s j n) = none
  rw [h]
  exact Function.iterate_fixed (pstep_none s) i

/-- Chains compose across an intermediate node. -/
theorem pIter_add_some (s : EState) (a n m : Nat) (h : pIter s a n = some m) (b : Nat) :
    pIter s (b + a) n = pIter s b m := by
  show (pstep s)^[b + a] (some n) = pIter s b m
  rw [Function.iterate_add_apply]
  show (pstep s)^[b] (pIter s a n) = pIter s b m
  rw [h]
  rfl

/-- From a parentless node every nonempty chain is off the tree. -/
theorem pIter_parent_none (s : EState) (n : Nat) (h : (s.nodes n).parent = none) (k : Nat) :
    pIter s (k + 1) n = none := by
  rw [pIter_succ_front, h]
  exact Function.iterate_fixed (pstep_none s) k

/-- Two heaps that assign the same parent everywhere except at `c` produce
the same chain, as long as the chain has not passed through `c`. -/
theorem pIter_congr_avoid (s s2 : EState) (c : Nat)
    (hpar : ∀ m, m ≠ c → (s2.nodes m).parent = (s.nodes m).parent) :
    ∀ (k n : Nat), (∀ j, j < k → pIter s j n ≠ some c) → pIter s2 k n = pIter s k n := by
  intro k
  induction k with
  | zero => intro n _; rfl
  | succ k ih =>
    intro n hav
    have hk : pIter s2 k n = pIter s k n := ih n (fun j hj => hav j (Nat.lt_succ_of_lt hj))
    rw [pIter_succ, pIter_succ, hk]
    cases ho : pIter s k n with
    | none => rfl
    | some m =>
      have hm : m ≠ c := fun he => hav k (Nat.lt_succ_self k) (by rw [ho, he])
      show pstep s2 (some m) = pstep s (some m)
      simp [pstep, hpar m hm]

/-- Terminating parent chains leave no room for a node to be its own
proper ancestor: a cycle would repeat forever, never reaching a root. -/
theorem terminating_noSelfAnc (s : EState) (ht : Terminating s) : NoSelfAnc s := by
  intro n k hcyc
  obtain ⟨j, hj⟩ := ht n
  have hrep : ∀ m, pIter s (m * (k + 1)) n = some n := by
    intro m
    induction m with
    | zero => simpa using pIter_zero s n
    | succ m ih =>
      have h2 := pIter_add_some s (m * (k + 1)) n n ih (k + 1)
      rw [hcyc] at h2
      have h3 : (m + 1) * (k + 1) = (k + 1) + m * (k + 1) := by ring
      rw [h3]
      exact h2
  have h3 := hrep j
  have h4 : j * (k + 1) = j * k + j := by ring
  have h5 : pIter s (j * k + j) n = none := pIter_none_mono s j n hj (j * k)
  rw [h4, h5] at h3
  exact Option.noConfusion h3

/-- The strengthened invariant implies the spec's tree-shape invariant:
the unique-parent clause follows from parent/child symmetry, acyclicity
from chain termination. -/
theorem strongInv_treeInv (s : EState) (h : StrongInv s) : TreeInv s := by
  obtain ⟨hsym, hnd, hterm⟩ := h
  refine ⟨hsym, hnd, ?_, terminating_noSelfAnc s hterm⟩
  intro c p q hp hq
  have h1 := hsym p c hp
  have h2 := hsym q c hq
  rw [h1] at h2
  exact Option.some_inj.mp h2

/-- The fresh forest satisfies the strengthened invariant. -/
theorem strongInv_fresh : StrongInv freshState := by
  refine ⟨?_, ?_, ?_⟩
  · intro p c hc
    simp [freshState, blankNode] at hc
  · intro p
    simp [freshState, blankNode]
  · intro n
    exact ⟨1, pIter_parent_none freshState n rfl 0⟩

/-- A successful `findIndex` on the equality predicate means the child is
present, sits at the reported index, and splicing that index removes
exactly the first occurrence. -/
theorem findIndexP_beq_some :
    ∀ {l : List Nat} {c i : Nat}, findIndexP (fun x => x == c) l = some i →
      c ∈ l ∧ l.getD i 0 = c ∧ l.eraseIdx i = l.erase c := by
  intro l
  induction l with
  | nil => intro c i h; cases h
  | cons a l ih =>
    intro c i h
    by_cases hac : a = c
    · subst hac
      have h0 : i = 0 := by
        simp [findIndexP] at h
        exact h.symm
      subst h0
      exact ⟨List.mem_cons_self a l, rfl, (List.erase_cons_head a l).symm⟩
    · rw [findIndexP] at h
      rw [if_neg (by simp [hac])] at h
      obtain ⟨j, hj, hij⟩ := Option.map_eq_some'.mp h
      subst hij
      obtain ⟨hmem, hgd, her⟩ := ih hj
      refine ⟨List.mem_cons_of_mem a hmem, hgd, ?_⟩
      show a :: l.eraseIdx j = (a :: l).erase c
      rw [her, List.erase_cons, if_neg (by simp [hac])]

/-- Found-case `removeChild` clears the removed child's parent. -/
theorem removeChild_found_parent_c (s : EState) (p c i : Nat)
    (hfi : findIndexP (fun x => x == c) ((s.nodes p).children) = some i) :
    (((removeChild s p c).getD s).nodes c).parent = none := by
  obtain ⟨hmem, hgd, her⟩ := findIndexP_beq_some hfi
  have hgd2 : ((s.nodes p).children)[i]?.getD 0 = c := by
    simpa [List.getD] using hgd
  by_cases hpc : p = c
  · subst hpc
    simp [removeChild, hfi, setNode, hgd2]
  · simp [removeChild, hfi, setNode, hgd2, hpc, Ne.symm hpc]

/-- Found-case `removeChild` leaves every other node's parent untouched. -/
theorem removeChild_found_parent_other (s : EState) (p c i x : Nat)
    (hfi : findIndexP (fun x => x == c) ((s.nodes p).children) = some i)
    (hx : x ≠ c) :
    (((removeChild s p c).getD s).nodes x).parent = (s.nodes x).parent := by
  obtain ⟨hmem, hgd, her⟩ := findIndexP_beq_some hfi
  have hgd2 : ((s.nodes p).children)[i]?.getD 0 = c := by
    simpa [List.getD] using hgd
  by_cases hxp : x = p
  · have hpc : ¬ p = c := fun h9 => hx (hxp.trans h9)
    simp [removeChild, hfi, setNode, hgd2, hx, hxp, hpc]
  · simp [removeChild, hfi, setNode, hgd2, hx, hxp]

/-- Found-case `removeChild` splices the first occurrence of the child
out of the receiver's children. -/
theorem removeChild_found_children_p (s : EState) (p c i : Nat)
    (hfi : findIndexP (fun x => x == c) ((s.nodes p).children) = some i) :
    (((removeChild s p c).getD s).nodes p).children = ((s.nodes p).children).erase c := by
  obtain ⟨hmem, hgd, her⟩ := findIndexP_beq_some hfi
  have hgd2 : ((s.nodes p).children)[i]?.getD 0 = c := by
    simpa [List.getD] using hgd
  by_cases hpc : p = c
  · subst hpc
    simp [removeChild, hfi, setNode, hgd2, her]
  · simp [removeChild, hfi, setNode, hgd2, hpc, her]

/-- Found-case `removeChild` leaves every other node's children
untouched. -/
theorem removeChild_found_children_other (s : EState) (p c i x : Nat)
    (hfi : findIndexP (fun x => x == c) ((s.nodes p).children) = some i)
    (hx : x ≠ p) :
    (((removeChild s p c).getD s).nodes x).children = (s.nodes x).children := by
  obtain ⟨hmem, hgd, her⟩ := findIndexP_beq_some hfi
  have hgd2 : ((s.nodes p).children)[i]?.getD 0 = c := by
    simpa [List.getD] using hgd
  by_cases hxc : x = c
  · have hcp : ¬ c = p := fun h9 => hx (hxc.trans h9)
    simp [removeChild, hfi, setNode, hgd2, hx, hxc, hcp]
  · simp [removeChild, hfi, setNode, hgd2, hx, hxc]

/-- An update that only removes parent edges (every node keeps its parent
or becomes parentless) preserves termination of all parent chains. -/
theorem terminating_shrink (s s2 : EState)
    (h : ∀ m, (s2.nodes m).parent = (s.nodes m).parent ∨ (s2.nodes m).parent = none)
    (ht : Terminating s) : Terminating s2 := by
  have main : ∀ (k n : Nat), pIter s k n = none → ∃ j, pIter s2 j n = none := by
    intro k
    induction k with
    | zero => intro n hk; exact Option.noConfusion hk
    | succ k ih =>
      intro n hk
      cases hpn : (s.nodes n).parent with
      | none =>
        cases h n with
        | inl he => exact ⟨1, pIter_parent_none s2 n (he.trans hpn) 0⟩
        | inr he => exact ⟨1, pIter_parent_none s2 n he 0⟩
      | some m =>
        have hk2 : pIter s k m = none := by
          have h5 := pIter_succ_front s k n
          rw [hpn] at h5
          rw [h5] at hk
          exact hk
        obtain ⟨k2, hk2b⟩ := ih m hk2
        cases h n with
        | inr he => exact ⟨1, pIter_parent_none s2 n he 0⟩
        | inl he =>
          have h1 : pIter s2 1 n = some m := by
            show pstep s2 (some n) = some m
            simp [pstep, he, hpn]
          exact ⟨k2 + 1, by
            rw [pIter_add_some s2 1 n m h1 k2]
            exact hk2b⟩
  intro n
  obtain ⟨k, hk⟩ := ht n
  exact main k n hk

/-- `addChild` under the guards — the child is parentless and not an
ancestor-or-self of the receiver — preserves the strengthened invariant. -/
theorem strongInv_addChild (s : EState) (p c : Nat) (hinv : StrongInv s)
    (hpar : (s.nodes c).parent = none)
    (hanc : ∀ k, pIter s k p ≠ some c) :
    StrongInv (addChild s p c) := by
  obtain ⟨hsym, hnd, hterm⟩ := hinv
  have hcmem : c ∉ (s.nodes p).children := by
    intro hm
    have h1 := hsym p c hm
    rw [hpar] at h1
    exact Option.noConfusion h1
  have hch_p := addChild_children_p s p c hcmem
  have hch_o := fun x hx => addChild_children_other s p c x hcmem hx
  have hpar_c := addChild_parent_c s p c hcmem
  have hpar_o := fun x hx => addChild_parent_other s p c x hcmem hx
  refine ⟨?_, ?_, ?_⟩
  · intro q x hx
    by_cases hxc : x = c
    · by_cases hqp : q = p
      · rw [hxc, hqp]
        exact hpar_c
      · rw [hch_o q hqp, hxc] at hx
        have h1 := hsym q c hx
        rw [hpar] at h1
        exact Option.noConfusion h1
    · rw [hpar_o x hxc]
      by_cases hqp : q = p
      · rw [hqp] at hx ⊢
        rw [hch_p] at hx
        rcases List.mem_append.mp hx with h1 | h1
        · exact hsym p x h1
        · rw [List.mem_singleton] at h1
          exact absurd h1 hxc
      · rw [hch_o q hqp] at hx
        exact hsym q x hx
  · intro q
    by_cases hqp : q = p
    · rw [hqp, hch_p]
      simp [List.nodup_append, hnd p, hcmem]
    · rw [hch_o q hqp]
      exact hnd q
  · intro n
    by_cases hex : ∃ j, pIter s j n = some c
    · classical
      have hj : pIter s (Nat.find hex) n = some c := Nat.find_spec hex
      have hj2 : pIter (addChild s p c) (Nat.find hex) n = some c := by
        rw [pIter_congr_avoid s (addChild s p c) c hpar_o (Nat.find hex) n
          (fun i hi => Nat.find_min hex hi)]
        exact hj
      have hstep : pIter (addChild s p c) (Nat.find hex + 1) n = some p := by
        rw [pIter_succ, hj2]
        show pstep (addChild s p c) (some c) = some p
        simp [pstep, hpar_c]
      obtain ⟨m, hm⟩ := hterm p
      have hmp : pIter (addChild s p c) m p = none := by
        rw [pIter_congr_avoid s (addChild s p c) c hpar_o m p (fun i _ => hanc i)]
        exact hm
      exact ⟨m + (Nat.find hex + 1), by
        rw [pIter_add_some (addChild s p c) (Nat.find hex + 1) n p hstep m]
        exact hmp⟩
    · push_neg at hex
      obtain ⟨k, hk⟩ := hterm n
      refine ⟨k, ?_⟩
      rw [pIter_congr_avoid s (addChild s p c) c hpar_o k n (fun j _ => hex j)]
      exact hk

/-- `removeChild` — throwing harmlessly when the child is absent, clearing
the parent and splicing when present — preserves the strengthened
invariant. -/
theorem strongInv_removeChild (s : EState) (p c : Nat) (hinv : StrongInv s) :
    StrongInv ((removeChild s p c).getD s) := by
  obtain ⟨hsym, hnd, hterm⟩ := hinv
  cases hfi : findIndexP (fun x => x == c) ((s.nodes p).children) with
  | none =>
    have he : (removeChild s p c).getD s = s := by simp [removeChild, hfi]
    rw [he]
    exact ⟨hsym, hnd, hterm⟩
  | some i =>
    obtain ⟨hmem, hgd, her⟩ := findIndexP_beq_some hfi
    have hpar_c := removeChild_found_parent_c s p c i hfi
    have hpar_o := fun x hx => removeChild_found_parent_other s p c i x hfi hx
    have hch_p := removeChild_found_children_p s p c i hfi
    have hch_o := fun x hx => removeChild_found_children_other s p c i x hfi hx
    refine ⟨?_, ?_, ?_⟩
    · intro q x hx
      by_cases hxc : x = c
      · by_cases hqp : q = p
        · rw [hqp, hch_p, hxc] at hx
          exact absurd ((List.Nodup.mem_erase_iff (hnd p)).mp hx).1 (fun h9 => h9 rfl)
        · rw [hch_o q hqp, hxc] at hx
          have h1 := hsym q c hx
          have h2 := hsym p c hmem
          rw [h1] at h2
          exact absurd (Option.some_inj.mp h2) hqp
      · rw [hpar_o x hxc]
        by_cases hqp : q = p
        · rw [hqp] at hx ⊢
          rw [hch_p] at hx
          exact hsym p x (List.mem_of_mem_erase hx)
        · rw [hch_o q hqp] at hx
          exact hsym q x hx
    · intro q
      by_cases hqp : q = p
      · rw [hqp, hch_p]
        exact (hnd p).erase c
      · rw [hch_o q hqp]
        exact hnd q
    · refine terminating_shrink s _ ?_ hterm
      intro m
      by_cases hmc : m = c
      · subst hmc
        exact Or.inr hpar_c
      · exact Or.inl (hpar_o m hmc)

/-- Every state reachable under the guarded discipline satisfies the
strengthened invariant. -/
theorem reachG_strongInv (s : EState) (h : ReachG s) : StrongInv s := by
  induction h with
  | init => exact strongInv_fresh
  | add s p c _ hpar hanc ih => exact strongInv_addChild s p c ih hpar hanc
  | rem s p c _ ih => exact strongInv_removeChild s p c ih

/-- C5 (amended): the tree-shape invariant — parent/child symmetry, no
duplicate or doubly-parented child entries, no cycles — holds after every
sequence of `addChild`/`removeChild` calls from freshly constructed nodes
PROVIDED each `addChild p c` is invoked while `c` has no parent and is not
`p` nor an ancestor of `p` (the code neither detaches a child from its
previous parent nor checks ancestry; see the counterexample for the
unguarded claim). -/
theorem C5_tree_invariant (s : EState) (h : ReachG s) : TreeInv s :=
  strongInv_treeInv s (reachG_strongInv s h)

/-- C5 witness: the fresh node `0` adopting the fresh node `1`. -/
theorem C5_tree_invariant_witness : TreeInv (addChild freshState 0 1) :=
  C5_tree_invariant _ (ReachG.add freshState 0 1 ReachG.init rfl (fun k => by
    cases k with
    | zero => simp [pIter_zero]
    | succ k =>
      rw [pIter_parent_none freshState 0 rfl k]
      simp))

/-- C5 counterexample: the unguarded claim is false — after
`(0).addChild(2)` then `(1).addChild(2)`, both reachable by plain
`addChild` calls on fresh nodes, entity `2` sits in the children
sequences of the two distinct parents `0` and `1` (the second attach never
detached it from the first), so the tree-shape invariant fails. -/
theorem C5_counterexample :
    Reach (addChild (addChild freshState 0 2) 1 2) ∧
    ¬ TreeInv (addChild (addChild freshState 0 2) 1 2) := by
  constructor
  · exact Reach.add _ 1 2 (Reach.add _ 0 2 Reach.init)
  · intro h
    have h01 := h.2.2.1 2 0 1 (by decide) (by decide)
    exact absurd h01 (by decide)

end Neptune
